import Mathlib

/-!
  Verification of the candidate-space enumeration and work-partitioning core
  of the RapidRAR password-recovery tool.

  The definitions below are shallow embeddings of the Python functions in
  `src/utils.py`, `src/config.py`, `src/cracker.py` and `main.py`.
  Machine integers in the source are Python arbitrary-precision integers,
  so they are modelled as `Nat` (or `Int` where Python semantics on negative
  inputs matter).  Candidate passwords are modelled as `String` built from
  `List Char`.
-/

/-! ## Configuration constants, from `src/config.py` -/

/-- Modelled from `src/config.py` line 9: `LOWERCASE_CHARS`. -/
def LOWERCASE_CHARS : List Char := "abcdefghijklmnopqrstuvwxyz".toList

/-- Modelled from `src/config.py` line 10: `UPPERCASE_CHARS`. -/
def UPPERCASE_CHARS : List Char := "ABCDEFGHIJKLMNOPQRSTUVWXYZ".toList

/-- Modelled from `src/config.py` line 11: `DIGIT_CHARS`. -/
def DIGIT_CHARS : List Char := "0123456789".toList

/-- Modelled from `src/config.py` line 12: `SPECIAL_CHARS`. -/
def SPECIAL_CHARS : List Char := "@#!$%^".toList

/-- Modelled from `src/config.py` line 18: `YEARS_RANGE = list(range(2020, 2026))`. -/
def YEARS_RANGE : List Nat := [2020, 2021, 2022, 2023, 2024, 2025]

/-- Modelled from `src/config.py` line 38: `PASSWORD_BATCH_SIZE = 10000`. -/
def PASSWORD_BATCH_SIZE : Nat := 10000

/-- Modelled from `src/config.py` lines 28-35: the `MASK_SYMBOLS` mapping from
two-character class tokens to their alphabets. -/
def MASK_SYMBOLS : List (String × List Char) :=
  [("?a", LOWERCASE_CHARS ++ UPPERCASE_CHARS ++ DIGIT_CHARS ++ SPECIAL_CHARS),
   ("?l", LOWERCASE_CHARS),
   ("?u", UPPERCASE_CHARS),
   ("?d", DIGIT_CHARS),
   ("?s", SPECIAL_CHARS),
   ("?h", "0123456789abcdef".toList)]

/-! ## Mixed-radix indexer, from `src/utils.py` lines 180-211 -/

/-- Helper for `get_position_from_index`: processes the radix list in the
iteration order of the Python loop `for length in reversed(charset_lengths)`,
so its argument is the reversed radix list.  Each step takes `index % length`
(which `position.insert(0, ...)` puts in front of all digits produced so far,
i.e. behind all digits produced later) and continues with `index // length`. -/
def posDigitsRev (index : Nat) : List Nat → List Nat
  | [] => []
  | l :: ls => posDigitsRev (index / l) ls ++ [index % l]

/-- Modelled from `src/utils.py` lines 180-195 (`get_position_from_index`):
converts a flat index into a per-position digit vector, most significant
position first. -/
def get_position_from_index (index : Nat) (charset_lengths : List Nat) : List Nat :=
  posDigitsRev index charset_lengths.reverse

/-- Modelled from `src/utils.py` lines 197-211 (`get_index_from_position`):
`index = index * charset_lengths[i] + pos` accumulated over the position
digits in order.  The Python loop pairs `position[i]` with
`charset_lengths[i]`; `zip` is faithful whenever the position vector is no
longer than the radix list (always the case for vectors the code produces). -/
def get_index_from_position (position charset_lengths : List Nat) : Nat :=
  (position.zip charset_lengths).foldl (fun index pl => index * pl.2 + pl.1) 0

theorem posDigitsRev_length (index : Nat) (ls : List Nat) :
    (posDigitsRev index ls).length = ls.length := by
  induction ls generalizing index with
  | nil => rfl
  | cons l ls ih => simp [posDigitsRev, ih]

theorem get_index_from_position_append (xs ls : List Nat) (d l : Nat)
    (h : xs.length = ls.length) :
    get_index_from_position (xs ++ [d]) (ls ++ [l]) =
      get_index_from_position xs ls * l + d := by
  unfold get_index_from_position
  rw [List.zip_append h, List.foldl_append]
  rfl

theorem roundtrip_rev (revL : List Nat) (hpos : ∀ l ∈ revL, 1 ≤ l) :
    ∀ index < revL.prod,
      get_index_from_position (posDigitsRev index revL) revL.reverse = index := by
  induction revL with
  | nil =>
    intro index hidx
    simp only [List.prod_nil] at hidx
    interval_cases index
    rfl
  | cons l ls ih =>
    intro index hidx
    have hl : 1 ≤ l := hpos l (List.mem_cons_self l ls)
    have hls : ∀ x ∈ ls, 1 ≤ x := fun x hx => hpos x (List.mem_cons_of_mem l hx)
    have hdiv : index / l < ls.prod := by
      rw [Nat.div_lt_iff_lt_mul (by omega)]
      calc index < (l :: ls).prod := hidx
        _ = ls.prod * l := by rw [List.prod_cons, Nat.mul_comm]
    have hlen : (posDigitsRev (index / l) ls).length = ls.reverse.length := by
      rw [posDigitsRev_length, List.length_reverse]
    calc get_index_from_position (posDigitsRev index (l :: ls)) (l :: ls).reverse
        = get_index_from_position (posDigitsRev (index / l) ls ++ [index % l])
            (ls.reverse ++ [l]) := by rw [List.reverse_cons]; rfl
      _ = get_index_from_position (posDigitsRev (index / l) ls) ls.reverse * l
            + index % l := get_index_from_position_append _ _ _ _ hlen
      _ = index / l * l + index % l := by rw [ih hls (index / l) hdiv]
      _ = index := by rw [Nat.mul_comm]; exact Nat.div_add_mod index l

/-- C1 — For every radix list `L` with all entries at least 1 and every
`idx < L.prod`, decoding the position vector of `idx` recovers `idx`;
hence the index-to-vector mapping is injective on `[0, L.prod)`; and the
empty radix list maps index 0 to the empty vector and back. -/
theorem c1_mixed_radix_roundtrip (L : List Nat) (hpos : ∀ l ∈ L, 1 ≤ l) :
    (∀ idx < L.prod,
        get_index_from_position (get_position_from_index idx L) L = idx)
    ∧ (∀ i < L.prod, ∀ j < L.prod,
        get_position_from_index i L = get_position_from_index j L → i = j)
    ∧ get_position_from_index 0 [] = []
    ∧ get_index_from_position [] [] = 0 := by
  have key : ∀ idx < L.prod,
      get_index_from_position (get_position_from_index idx L) L = idx := by
    intro idx hidx
    have hrev : ∀ l ∈ L.reverse, 1 ≤ l := by
      intro l hl
      exact hpos l (List.mem_reverse.mp hl)
    have hprod : idx < L.reverse.prod := by rwa [List.prod_reverse]
    have := roundtrip_rev L.reverse hrev idx hprod
    rwa [List.reverse_reverse] at this
  refine ⟨key, ?_, rfl, rfl⟩
  intro i hi j hj heq
  have h1 := key i hi
  have h2 := key j hj
  rw [← h1, heq]
  exact h2

/-- Witness for `c1_mixed_radix_roundtrip` at the concrete radix list
`[2, 3]`. -/
theorem c1_mixed_radix_roundtrip_witness :
    (∀ l ∈ [2, 3], 1 ≤ l)
    ∧ ((∀ idx < [2, 3].prod,
          get_index_from_position (get_position_from_index idx [2, 3]) [2, 3] = idx)
      ∧ (∀ i < [2, 3].prod, ∀ j < [2, 3].prod,
          get_position_from_index i [2, 3] = get_position_from_index j [2, 3] → i = j)
      ∧ get_position_from_index 0 [] = []
      ∧ get_index_from_position [] [] = 0) :=
  ⟨by decide, c1_mixed_radix_roundtrip [2, 3] (by decide)⟩

/-! ## Work partitioning, from `src/utils.py` lines 213-237 -/

/-- Helper for `calculate_work_division`: the loop
`for i in range(num_gpus): size = base_size + (1 if i < remainder else 0); ...`
with `i` the current loop counter, `start` the running start offset and the
`Nat` argument the number of iterations still to run. -/
def divLoop (base rem : Nat) : Nat → Nat → Nat → List (Nat × Nat)
  | _, _, 0 => []
  | i, start, n + 1 =>
    (start, start + (base + if i < rem then 1 else 0)) ::
      divLoop base rem (i + 1) (start + (base + if i < rem then 1 else 0)) n

/-- Modelled from `src/utils.py` lines 213-237 (`calculate_work_division`):
splits `total_combinations` items into `num_gpus` contiguous ranges, the
first `total_combinations % num_gpus` ranges one element larger.  This is
the `Nat` restriction (the domain the spec covers, `num_gpus ≥ 1`); the
full Python semantics on non-positive worker counts is
`calculate_work_division_py` below. -/
def calculate_work_division (total_combinations num_gpus : Nat) : List (Nat × Nat) :=
  divLoop (total_combinations / num_gpus) (total_combinations % num_gpus) 0 0 num_gpus

/-- The start offset of the k-th range in the closed form of the division:
`k * base` plus the number of earlier ranges that received one extra item. -/
def divStart (base rem k : Nat) : Nat := k * base + if k ≤ rem then k else rem

theorem divLoop_shift (base : Nat) :
    ∀ n rem i start, divLoop base rem i start n = divLoop base (rem - i) 0 start n := by
  intro n
  induction n with
  | zero => intro rem i start; rfl
  | succ n ih =>
    intro rem i start
    have hsz : (if i < rem then 1 else 0) = if 0 < rem - i then 1 else 0 := by
      split <;> split <;> omega
    show (start, start + (base + if i < rem then 1 else 0)) :: _
        = (start, start + (base + if 0 < rem - i then 1 else 0)) :: _
    rw [hsz]
    have h1 := ih rem (i + 1) (start + (base + if 0 < rem - i then 1 else 0))
    have h2 := ih (rem - i) 1 (start + (base + if 0 < rem - i then 1 else 0))
    have hr : rem - (i + 1) = rem - i - 1 := by omega
    rw [h1, hr, ← h2]

theorem divLoop_closed_form (base : Nat) :
    ∀ n rem start, divLoop base rem 0 start n =
      (List.range n).map (fun k => (start + divStart base rem k,
        start + divStart base rem (k + 1))) := by
  intro n
  induction n with
  | zero => intro rem start; rfl
  | succ n ih =>
    intro rem start
    rw [List.range_succ_eq_map]
    show (start, start + (base + if 0 < rem then 1 else 0)) :: _ = _
    rw [List.map_cons, List.map_map]
    have htail := divLoop_shift base n rem 1 (start + (base + if 0 < rem then 1 else 0))
    show _ :: divLoop base rem (0 + 1) (start + (base + if 0 < rem then 1 else 0)) n = _
    rw [htail, ih (rem - 1) (start + (base + if 0 < rem then 1 else 0))]
    congr 1
    · simp only [divStart, Prod.mk.injEq, Nat.succ_mul]
      constructor
      · split_ifs <;> omega
      · split_ifs <;> omega
    apply List.map_congr_left
    intro k _
    simp only [Function.comp]
    have e1 : start + (base + if 0 < rem then 1 else 0) + divStart base (rem - 1) k
        = start + divStart base rem (k + 1) := by
      simp only [divStart, Nat.succ_mul]
      split_ifs <;> omega
    have e2 : start + (base + if 0 < rem then 1 else 0) + divStart base (rem - 1) (k + 1)
        = start + divStart base rem (k + 1 + 1) := by
      simp only [divStart, Nat.succ_mul]
      split_ifs <;> omega
    rw [e1, e2]

theorem calculate_work_division_eq (total n : Nat) :
    calculate_work_division total n =
      (List.range n).map (fun k => (divStart (total / n) (total % n) k,
        divStart (total / n) (total % n) (k + 1))) := by
  unfold calculate_work_division
  rw [divLoop_closed_form]
  simp

theorem range_map_getD {α : Type} (n k : Nat) (f : Nat → α) (d : α) (h : k < n) :
    ((List.range n).map f).getD k d = f k := by
  rw [List.getD_eq_getElem?_getD, List.getElem?_map, List.getElem?_range h]
  rfl

theorem exists_interval (f : Nat → Nat) :
    ∀ n x, f 0 ≤ x → x < f n → ∃ k, k < n ∧ f k ≤ x ∧ x < f (k + 1) := by
  intro n
  induction n with
  | zero => intro x h0 hn; omega
  | succ n ih =>
    intro x h0 hn
    by_cases hc : f n ≤ x
    · exact ⟨n, by omega, hc, hn⟩
    · obtain ⟨k, hk, hfk, hfk1⟩ := ih x h0 (by omega)
      exact ⟨k, by omega, hfk, hfk1⟩

theorem divStart_mono (base rem : Nat) {a b : Nat} (h : a ≤ b) :
    divStart base rem a ≤ divStart base rem b := by
  simp only [divStart]
  have h1 : a * base ≤ b * base := Nat.mul_le_mul_right base h
  split_ifs <;> omega

/-- C2 — For every `total` and `n_workers ≥ 1`, `calculate_work_division`
returns exactly `n_workers` ranges; each range has size
`total / n_workers` plus one extra for the first `total % n_workers` ranges;
consecutive ranges are contiguous; the first starts at 0 and the last ends at
`total`; and the ranges cover exactly the interval `[0, total)`.  Determinism
is immediate since the embedding is a pure function of `(total, n_workers)`. -/
theorem c2_work_division (total n : Nat) (hn : 1 ≤ n) :
    (calculate_work_division total n).length = n
    ∧ (∀ k, k < n →
        ((calculate_work_division total n).getD k (0, 0)).2
          - ((calculate_work_division total n).getD k (0, 0)).1
          = total / n + if k < total % n then 1 else 0)
    ∧ (∀ k, k < n →
        ((calculate_work_division total n).getD k (0, 0)).1
          ≤ ((calculate_work_division total n).getD k (0, 0)).2)
    ∧ (∀ k, k + 1 < n →
        ((calculate_work_division total n).getD k (0, 0)).2
          = ((calculate_work_division total n).getD (k + 1) (0, 0)).1)
    ∧ ((calculate_work_division total n).getD 0 (0, 0)).1 = 0
    ∧ ((calculate_work_division total n).getD (n - 1) (0, 0)).2 = total
    ∧ (∀ x, x < total ↔ ∃ k, k < n
        ∧ ((calculate_work_division total n).getD k (0, 0)).1 ≤ x
        ∧ x < ((calculate_work_division total n).getD k (0, 0)).2) := by
  have hrem : total % n < n := Nat.mod_lt total (by omega)
  have hstartn : divStart (total / n) (total % n) n = total := by
    simp only [divStart]
    have hdm : n * (total / n) + total % n = total := Nat.div_add_mod total n
    have hcm : n * (total / n) = total / n * n := Nat.mul_comm _ _
    split_ifs <;> omega
  have hget : ∀ k, k < n → (calculate_work_division total n).getD k (0, 0)
      = (divStart (total / n) (total % n) k, divStart (total / n) (total % n) (k + 1)) := by
    intro k hk
    rw [calculate_work_division_eq]
    exact range_map_getD n k _ (0, 0) hk
  refine ⟨?_, ?_, ?_, ?_, ?_, ?_, ?_⟩
  · rw [calculate_work_division_eq, List.length_map, List.length_range]
  · intro k hk
    rw [hget k hk]
    dsimp only
    simp only [divStart, Nat.succ_mul]
    generalize total / n = q
    generalize total % n = r
    split_ifs <;> omega
  · intro k hk
    rw [hget k hk]
    exact divStart_mono _ _ (by omega)
  · intro k hk
    rw [hget k (by omega), hget (k + 1) hk]
  · rw [hget 0 (by omega)]
    dsimp only
    simp [divStart]
  · rw [hget (n - 1) (by omega)]
    dsimp only
    have heq : n - 1 + 1 = n := by omega
    rw [heq, hstartn]
  · intro x
    constructor
    · intro hx
      have h0 : divStart (total / n) (total % n) 0 ≤ x := by
        simp [divStart]
      have hnn : x < divStart (total / n) (total % n) n := by omega
      obtain ⟨k, hk, hfk, hfk1⟩ := exists_interval (divStart (total / n) (total % n)) n x h0 hnn
      refine ⟨k, hk, ?_⟩
      rw [hget k hk]
      exact ⟨hfk, hfk1⟩
    · rintro ⟨k, hk, hlo, hhi⟩
      rw [hget k hk] at hlo hhi
      dsimp only at hlo hhi
      have hmono : divStart (total / n) (total % n) (k + 1)
          ≤ divStart (total / n) (total % n) n := divStart_mono _ _ (by omega)
      omega

/-- Witness for `c2_work_division` at `total = 7`, `n = 3` (ranges
`(0,3), (3,5), (5,7)`). -/
theorem c2_work_division_witness :
    1 ≤ 3
    ∧ ((calculate_work_division 7 3).length = 3
      ∧ (∀ k, k < 3 →
          ((calculate_work_division 7 3).getD k (0, 0)).2
            - ((calculate_work_division 7 3).getD k (0, 0)).1
            = 7 / 3 + if k < 7 % 3 then 1 else 0)
      ∧ (∀ k, k < 3 →
          ((calculate_work_division 7 3).getD k (0, 0)).1
            ≤ ((calculate_work_division 7 3).getD k (0, 0)).2)
      ∧ (∀ k, k + 1 < 3 →
          ((calculate_work_division 7 3).getD k (0, 0)).2
            = ((calculate_work_division 7 3).getD (k + 1) (0, 0)).1)
      ∧ ((calculate_work_division 7 3).getD 0 (0, 0)).1 = 0
      ∧ ((calculate_work_division 7 3).getD (3 - 1) (0, 0)).2 = 7
      ∧ (∀ x, x < 7 ↔ ∃ k, k < 3
          ∧ ((calculate_work_division 7 3).getD k (0, 0)).1 ≤ x
          ∧ x < ((calculate_work_division 7 3).getD k (0, 0)).2)) :=
  ⟨by decide, c2_work_division 7 3 (by decide)⟩

/-! ## Candidate batch generation, from `src/utils.py` lines 126-151 -/

/-- Helper for `generate_password_batch`: the inner loop
`for _ in range(length): password.append(charset[idx % charset_len]); idx //= charset_len`,
producing the digits least significant first (the code reverses them at the
end).  `getD` with a dummy default models Python's `charset[...]`, whose
index `idx % charset_len` is always in bounds for a non-empty charset. -/
def pwdDigits (charset : List Char) : Nat → Nat → List Char
  | 0, _ => []
  | n + 1, idx =>
    charset.getD (idx % charset.length) ' ' :: pwdDigits charset n (idx / charset.length)

/-- Modelled from `src/utils.py` lines 126-151 (`generate_password_batch`):
materializes the candidates with flat index in
`[start_idx, min(start_idx + batch_size, charset_len ** length))` for the
fixed-length brute-force space, each index converted to base
`charset_len` most significant digit first. -/
def generate_password_batch (charset : List Char) (length start_idx batch_size : Nat) :
    List String :=
  (List.range (min (start_idx + batch_size) (charset.length ^ length) - start_idx)).map
    (fun k => String.mk (pwdDigits charset length (start_idx + k)).reverse)

/-- Modelled from `src/cracker.py` line 247: the size of the brute-force
sub-space at one length is `len(charset) ** length`. -/
def bruteforceLengthTotal (charset : List Char) (length : Nat) : Nat :=
  charset.length ^ length

/-- C4 — Brute force over alphabet "01" at length 2: the total combination
count is 4, and materializing the full range yields exactly
`["00", "01", "10", "11"]` in that order. -/
theorem c4_bruteforce_01_length2 :
    bruteforceLengthTotal ['0', '1'] 2 = 4
    ∧ generate_password_batch ['0', '1'] 2 0 4 = ["00", "01", "10", "11"] := by
  decide

/-- C8, counterexample — a materialize request whose range is not contained
in `[0, size)` does not fail: requesting `[3, 7)` of the 4-element space of
"01"-strings of length 2 silently returns the truncated batch `["11"]`, and
requesting `[10, 15)` silently returns the empty batch. -/
theorem c8_counterexample :
    generate_password_batch ['0', '1'] 2 3 4 = ["11"]
    ∧ generate_password_batch ['0', '1'] 2 10 5 = [] := by
  decide

/-- C8, amended — `generate_password_batch` clamps the requested range to the
space instead of failing: the batch always covers
`[start, min(start + count, size))`, so an in-range request returns exactly
`count` candidates and a request starting at or beyond the space size
returns the empty batch; no error is ever raised. -/
theorem c8_materialize_clamps (charset : List Char) (length start_idx batch_size : Nat) :
    (generate_password_batch charset length start_idx batch_size).length
      = min (start_idx + batch_size) (charset.length ^ length) - start_idx
    ∧ (start_idx + batch_size ≤ charset.length ^ length →
        (generate_password_batch charset length start_idx batch_size).length = batch_size)
    ∧ (charset.length ^ length ≤ start_idx →
        generate_password_batch charset length start_idx batch_size = []) := by
  refine ⟨?_, ?_, ?_⟩
  · rw [generate_password_batch, List.length_map, List.length_range]
  · intro h
    rw [generate_password_batch, List.length_map, List.length_range]
    omega
  · intro h
    rw [generate_password_batch]
    have hz : min (start_idx + batch_size) (charset.length ^ length) - start_idx = 0 := by
      omega
    rw [hz]
    rfl

/-- Witness for `c8_materialize_clamps` at charset "01", length 2,
range `[1, 3)`. -/
theorem c8_materialize_clamps_witness :
    ((generate_password_batch ['0', '1'] 2 1 2).length
      = min (1 + 2) (['0', '1'].length ^ 2) - 1
    ∧ (1 + 2 ≤ ['0', '1'].length ^ 2 →
        (generate_password_batch ['0', '1'] 2 1 2).length = 2)
    ∧ (['0', '1'].length ^ 2 ≤ 1 →
        generate_password_batch ['0', '1'] 2 1 2 = []))
    ∧ 1 + 2 ≤ ['0', '1'].length ^ 2 := by
  refine ⟨c8_materialize_clamps ['0', '1'] 2 1 2, by decide⟩

/-! ## Mask parsing, from `src/utils.py` lines 153-178 -/

/-- Modelled from `src/utils.py` lines 153-178 (`parse_mask`): walks the mask
left to right; at a '?' that is not the last character it looks the
two-character token up in `charset_map` and on success consumes both
characters and appends the class alphabet; in every other case (ordinary
character, trailing '?', token not in the map) it appends the single current
character as a fixed one-character position and consumes only it. -/
def parse_mask (charset_map : List (String × List Char)) : List Char → List (List Char)
  | [] => []
  | c :: rest =>
    if c = '?' then
      match rest with
      | c2 :: rest2 =>
        match charset_map.lookup (String.mk [c, c2]) with
        | some cs => cs :: parse_mask charset_map rest2
        | none => [c] :: parse_mask charset_map (c2 :: rest2)
      | [] => [c] :: parse_mask charset_map []
    else [c] :: parse_mask charset_map rest

/-- Modelled from `src/cracker.py` lines 391-392: the per-position sizes of a
parsed mask, counting a position as branching only when its alphabet has
more than one character. -/
def maskCharsetLengths (charsets : List (List Char)) : List Nat :=
  charsets.map (fun cs => if 1 < cs.length then cs.length else 1)

/-- C7, counterexample — parsing a mask with a malformed class token does not
fail: a trailing unterminated '?' and an unknown class token '?z' are both
accepted, producing fixed literal positions (a candidate space of size 1)
rather than an error. -/
theorem c7_counterexample :
    parse_mask MASK_SYMBOLS ['?'] = [['?']]
    ∧ parse_mask MASK_SYMBOLS ['?', 'z'] = [['?'], ['z']]
    ∧ (maskCharsetLengths (parse_mask MASK_SYMBOLS ['?', 'z'])).prod = 1 := by
  decide

/-- C7, amended — `parse_mask` never fails: a '?' followed by a character
whose two-character token is not in the map is emitted as the literal
position `['?']` and parsing continues at the following character, and a
trailing unterminated '?' is emitted as the literal position `['?']`. -/
theorem c7_malformed_mask_is_literal (charset_map : List (String × List Char))
    (c2 : Char) (rest : List Char)
    (h : charset_map.lookup (String.mk ['?', c2]) = none) :
    parse_mask charset_map ('?' :: c2 :: rest)
      = ['?'] :: parse_mask charset_map (c2 :: rest)
    ∧ parse_mask charset_map ['?'] = [['?']] := by
  constructor
  · simp [parse_mask, h]
  · simp [parse_mask]

/-- Witness for `c7_malformed_mask_is_literal` at the real symbol table and
the unknown token '?z'. -/
theorem c7_malformed_mask_is_literal_witness :
    MASK_SYMBOLS.lookup (String.mk ['?', 'z']) = none
    ∧ (parse_mask MASK_SYMBOLS ('?' :: 'z' :: ['d'])
        = ['?'] :: parse_mask MASK_SYMBOLS ('z' :: ['d'])
      ∧ parse_mask MASK_SYMBOLS ['?'] = [['?']]) :=
  ⟨by decide, c7_malformed_mask_is_literal MASK_SYMBOLS 'z' ['d'] (by decide)⟩

/-! ## Per-worker verification tasks, from `src/cracker.py` -/

/-- Helper modelling the scan loop `for i, password in enumerate(passwords)`
of the worker tasks: returns the first index (counting from `k`) whose
candidate passes `check`, together with that candidate. -/
def scanBatchAux (check : String → Bool) : List String → Nat → Option (Nat × String)
  | [], _ => none
  | p :: ps, i => if check p then some (i, p) else scanBatchAux check ps (i + 1)

/-- Modelled from `src/cracker.py` lines 278-377 (`_gpu_bruteforce_task`).
The kernel pre-filter `results[i] == 1` and the CPU re-check
`check_password` are abstracted as the predicates `gpuRes` and `cpuCheck`;
a candidate matches when both accept it, exactly as in the nested `if`s of
lines 345-348.  The loop over batches returns unconditionally at the end of
its first iteration (lines 362-369 return whenever
`current_batch_size > 0`, which holds whenever the loop body runs), so only
the first batch `[start, start + min(PASSWORD_BATCH_SIZE, end - start))` is
ever scanned; on a match the reported attempts are `attempts + i + 1` with
the accumulator `attempts` still 0.  A call with `start ≥ end` is modelled
by the function's final return (the Python loop is never entered on the
ranges the orchestrator produces). -/
def gpuBruteforceTask (gpuRes cpuCheck : String → Bool) (charset : List Char)
    (len s e cap : Nat) : Option String × Nat × (Nat × Nat) :=
  if s < e then
    match scanBatchAux (fun p => gpuRes p && cpuCheck p)
        (generate_password_batch charset len s (min cap (e - s))) 0 with
    | some ip => (some ip.2, ip.1 + 1, (len, s + ip.1))
    | none => (none, min cap (e - s), (len, s + min cap (e - s)))
  else (none, 0, (len, e))

/-- Modelled from `src/cracker.py` lines 461-473 (candidate construction in
`_gpu_mask_task`): the flat index is converted to a position vector over the
per-position sizes and each position contributes either the indexed
character of a branching alphabet or the fixed literal character. -/
def maskPassword (charsets : List (List Char)) (i : Nat) : String :=
  String.mk (((get_position_from_index i (maskCharsetLengths charsets)).zip charsets).flatMap
    (fun pc => if 1 < pc.2.length then [pc.2.getD pc.1 ' '] else pc.2))

/-- Modelled from `src/cracker.py` lines 434-511 (`_gpu_mask_task`): same
batch structure as the brute-force task (first batch only, early return on
`current_batch_size > 0`), candidates built by `maskPassword` for flat
indices `[batch_start, batch_end)`, match checked by `check_password`
directly (lines 479-487). -/
def gpuMaskTask (cpuCheck : String → Bool) (charsets : List (List Char))
    (s e cap : Nat) : Option String × Nat × List Nat :=
  if s < e then
    match scanBatchAux cpuCheck
        ((List.range (min cap (e - s))).map (fun k => maskPassword charsets (s + k))) 0 with
    | some ip => (some ip.2, ip.1 + 1,
        get_position_from_index (s + ip.1) (maskCharsetLengths charsets))
    | none => (none, min cap (e - s),
        get_position_from_index (s + min cap (e - s) - 1) (maskCharsetLengths charsets))
  else (none, 0, get_position_from_index (e - 1) (maskCharsetLengths charsets))

/-- Modelled from `src/cracker.py` lines 579-610 (`_gpu_dictionary_task`):
scans its batch with `check_password` and returns attempts `i + 1` on a
match at 0-based offset `i`, or the batch length when nothing matches. -/
def gpuDictionaryTask (cpuCheck : String → Bool) (batch : List String) :
    Option String × Nat :=
  match scanBatchAux cpuCheck batch 0 with
  | some ip => (some ip.2, ip.1 + 1)
  | none => (none, batch.length)

theorem scanBatchAux_some (check : String → Bool) :
    ∀ (ps : List String) (k i : Nat) (q : String),
      scanBatchAux check ps k = some (i, q) →
      ∃ j, i = k + j ∧ ps[j]? = some q := by
  intro ps
  induction ps with
  | nil =>
    intro k i q h
    simp [scanBatchAux] at h
  | cons r rs ih =>
    intro k i q h
    by_cases hc : check r
    · rw [scanBatchAux, if_pos hc] at h
      obtain ⟨hi, hq⟩ := Prod.mk.injEq .. ▸ Option.some.injEq .. ▸ h
      exact ⟨0, by omega, by simp [← hq]⟩
    · rw [scanBatchAux, if_neg hc] at h
      obtain ⟨j, hij, hget⟩ := ih (k + 1) i q h
      exact ⟨j + 1, by omega, by simpa using hget⟩

theorem scanBatchAux_found (check : String → Bool) (ps : List String) (i : Nat)
    (q : String) (h : scanBatchAux check ps 0 = some (i, q)) :
    ps[i]? = some q ∧ i < ps.length := by
  obtain ⟨j, hij, hget⟩ := scanBatchAux_some check ps 0 i q h
  have hj : i = j := by omega
  subst hj
  exact ⟨hget, (List.getElem?_eq_some.mp hget).1⟩

/-- C5 — In all three attack modes, a match found inside a batch is reported
with `attempts` equal to the 1-based offset of the matching candidate within
that batch (the number of candidates consumed), which never exceeds the
batch size. -/
theorem c5_match_attempts :
    (∀ (gpuRes cpuCheck : String → Bool) (charset : List Char) (len s e cap : Nat)
        (p : String) (a : Nat) (pos : Nat × Nat),
      s < e →
      gpuBruteforceTask gpuRes cpuCheck charset len s e cap = (some p, a, pos) →
      ∃ i, (generate_password_batch charset len s (min cap (e - s)))[i]? = some p
        ∧ a = i + 1
        ∧ a ≤ (generate_password_batch charset len s (min cap (e - s))).length)
    ∧ (∀ (cpuCheck : String → Bool) (charsets : List (List Char)) (s e cap : Nat)
        (p : String) (a : Nat) (pos : List Nat),
      s < e →
      gpuMaskTask cpuCheck charsets s e cap = (some p, a, pos) →
      ∃ i, ((List.range (min cap (e - s))).map
              (fun k => maskPassword charsets (s + k)))[i]? = some p
        ∧ a = i + 1
        ∧ a ≤ min cap (e - s))
    ∧ (∀ (cpuCheck : String → Bool) (batch : List String) (p : String) (a : Nat),
      gpuDictionaryTask cpuCheck batch = (some p, a) →
      ∃ i, batch[i]? = some p ∧ a = i + 1 ∧ a ≤ batch.length) := by
  refine ⟨?_, ?_, ?_⟩
  · intro gpuRes cpuCheck charset len s e cap p a pos hse htask
    rw [gpuBruteforceTask, if_pos hse] at htask
    split at htask
    · rename_i ip hscan
      obtain ⟨hp, ha, _⟩ := Prod.mk.injEq .. ▸ htask
      obtain ⟨hget, hlt⟩ := scanBatchAux_found _ _ ip.1 ip.2 hscan
      refine ⟨ip.1, ?_, by omega, by omega⟩
      rw [← Option.some.inj hp]
      exact hget
    · exact absurd (congrArg Prod.fst htask) (by simp)
  · intro cpuCheck charsets s e cap p a pos hse htask
    rw [gpuMaskTask, if_pos hse] at htask
    split at htask
    · rename_i ip hscan
      obtain ⟨hp, ha, _⟩ := Prod.mk.injEq .. ▸ htask
      obtain ⟨hget, hlt⟩ := scanBatchAux_found _ _ ip.1 ip.2 hscan
      rw [List.length_map, List.length_range] at hlt
      refine ⟨ip.1, ?_, by omega, by omega⟩
      rw [← Option.some.inj hp]
      exact hget
    · exact absurd (congrArg Prod.fst htask) (by simp)
  · intro cpuCheck batch p a htask
    rw [gpuDictionaryTask] at htask
    split at htask
    · rename_i ip hscan
      obtain ⟨hp, ha⟩ := Prod.mk.injEq .. ▸ htask
      obtain ⟨hget, hlt⟩ := scanBatchAux_found _ _ ip.1 ip.2 hscan
      refine ⟨ip.1, ?_, by omega, by omega⟩
      rw [← Option.some.inj hp]
      exact hget
    · exact absurd (congrArg Prod.fst htask) (by simp)

/-- Witness for `c5_match_attempts`: a match in the middle of a concrete
batch in each of the three modes. -/
theorem c5_match_attempts_witness :
    ((0 < 4 ∧ gpuBruteforceTask (fun _ => true) (fun q => q == "01") ['0', '1'] 2 0 4 10
        = (some "01", 2, (2, 1)))
      ∧ ∃ i, (generate_password_batch ['0', '1'] 2 0 (min 10 (4 - 0)))[i]? = some "01"
          ∧ 2 = i + 1
          ∧ 2 ≤ (generate_password_batch ['0', '1'] 2 0 (min 10 (4 - 0))).length)
    ∧ ((0 < 10 ∧ gpuMaskTask (fun q => q == "3") [DIGIT_CHARS] 0 10 100
        = (some "3", 4, [3]))
      ∧ ∃ i, ((List.range (min 100 (10 - 0))).map
            (fun k => maskPassword [DIGIT_CHARS] (0 + k)))[i]? = some "3"
          ∧ 4 = i + 1
          ∧ 4 ≤ min 100 (10 - 0))
    ∧ ((gpuDictionaryTask (fun q => q == "b") ["a", "b", "c"] = (some "b", 2))
      ∧ ∃ i, ["a", "b", "c"][i]? = some "b" ∧ 2 = i + 1 ∧ 2 ≤ ["a", "b", "c"].length) :=
  ⟨⟨⟨by decide, by decide⟩,
      c5_match_attempts.1 (fun _ => true) (fun q => q == "01") ['0', '1'] 2 0 4 10
        "01" 2 (2, 1) (by decide) (by decide)⟩,
    ⟨⟨by decide, by decide⟩,
      c5_match_attempts.2.1 (fun q => q == "3") [DIGIT_CHARS] 0 10 100
        "3" 4 [3] (by decide) (by decide)⟩,
    ⟨by decide,
      c5_match_attempts.2.2 (fun q => q == "b") ["a", "b", "c"] "b" 2 (by decide)⟩⟩

/-! ## Dictionary suffix expansion, from `src/cracker.py` lines 538-547 -/

/-- Modelled from `src/cracker.py` lines 540-547: when `use_years` is set,
each word of the batch is kept and the word with each year of `YEARS_RANGE`
appended (`f"{password}{year}"`) is added directly after it. -/
def expandBatchYears (batch : List String) : List String :=
  batch.flatMap (fun password =>
    password :: YEARS_RANGE.map (fun year => password ++ toString year))

/-- The spec's view of the same loop (design section 4.2): an arbitrary
ordered suffix token set, each word expanded to the bare word followed by
word-plus-token in token order.  The source instantiates the token set with
the decimal renderings of `YEARS_RANGE`. -/
def expandBatch (suffixes : List String) (batch : List String) : List String :=
  batch.flatMap (fun password => password :: suffixes.map (fun sfx => password ++ sfx))

theorem expandBatchYears_eq (batch : List String) :
    expandBatchYears batch
      = expandBatch (YEARS_RANGE.map (fun year => toString year)) batch := by
  simp only [expandBatchYears, expandBatch, List.map_map]
  rfl

theorem expandBatch_cons (suffixes : List String) (w : String) (ws : List String) :
    expandBatch suffixes (w :: ws)
      = (w :: suffixes.map (fun sfx => w ++ sfx)) ++ expandBatch suffixes ws := by
  simp [expandBatch]

theorem expandBatch_length (suffixes batch : List String) :
    (expandBatch suffixes batch).length = batch.length * (1 + suffixes.length) := by
  induction batch with
  | nil => simp [expandBatch]
  | cons w ws ih =>
    rw [expandBatch_cons, List.length_append, ih]
    simp only [List.length_cons, List.length_map]
    rw [Nat.succ_mul]
    omega

theorem take_len_append {α : Type} (l1 l2 : List α) : (l1 ++ l2).take l1.length = l1 := by
  induction l1 with
  | nil => rfl
  | cons a t ih => simp [ih]

theorem drop_len_append {α : Type} (l2 : List α) :
    ∀ (l1 : List α) (n : Nat), (l1 ++ l2).drop (l1.length + n) = l2.drop n := by
  intro l1
  induction l1 with
  | nil => intro n; simp
  | cons a t ih =>
    intro n
    have h : (a :: t).length + n = t.length + n + 1 := by
      simp only [List.length_cons]
      omega
    rw [h, List.cons_append, List.drop_succ_cons]
    exact ih n

theorem expandBatch_segment (suffixes : List String) :
    ∀ (batch : List String) (j : Nat), j < batch.length →
      ((expandBatch suffixes batch).drop (j * (1 + suffixes.length))).take
          (1 + suffixes.length)
        = batch.getD j "" :: suffixes.map (fun sfx => batch.getD j "" ++ sfx) := by
  intro batch
  induction batch with
  | nil =>
    intro j hj
    simp at hj
  | cons w ws ih =>
    intro j hj
    have hgrp : (w :: suffixes.map (fun sfx => w ++ sfx)).length = 1 + suffixes.length := by
      simp only [List.length_cons, List.length_map]
      omega
    cases j with
    | zero =>
      rw [Nat.zero_mul, List.drop_zero, expandBatch_cons, ← hgrp, take_len_append]
      rfl
    | succ j =>
      have harith : (j + 1) * (1 + suffixes.length)
          = (w :: suffixes.map (fun sfx => w ++ sfx)).length
              + j * (1 + suffixes.length) := by
        rw [hgrp, Nat.succ_mul]
        omega
      rw [expandBatch_cons, harith, drop_len_append]
      have hj2 : j < ws.length := by
        simp only [List.length_cons] at hj
        omega
      rw [ih j hj2]
      rfl

/-- C6 — With suffix expansion enabled, every dictionary word expands to
exactly `1 + number of suffix tokens` contiguous candidates — the bare word
first, then the word with each token appended in token order — with
source-word order preserved; the source's token set is the rendered
`YEARS_RANGE`, and a concrete word with tokens `["X", "Y"]` expands to
`["abc", "abcX", "abcY"]`. -/
theorem c6_suffix_expansion (suffixes batch : List String) (j : Nat)
    (hj : j < batch.length) :
    (expandBatch suffixes batch).length = batch.length * (1 + suffixes.length)
    ∧ ((expandBatch suffixes batch).drop (j * (1 + suffixes.length))).take
          (1 + suffixes.length)
        = batch.getD j "" :: suffixes.map (fun sfx => batch.getD j "" ++ sfx)
    ∧ (∀ b, expandBatchYears b
        = expandBatch (YEARS_RANGE.map (fun year => toString year)) b)
    ∧ expandBatch ["X", "Y"] ["abc"] = ["abc", "abcX", "abcY"]
    ∧ expandBatchYears ["pw"]
        = ["pw", "pw2020", "pw2021", "pw2022", "pw2023", "pw2024", "pw2025"] :=
  ⟨expandBatch_length suffixes batch,
   expandBatch_segment suffixes batch j hj,
   expandBatchYears_eq,
   by decide,
   by decide⟩

/-- Witness for `c6_suffix_expansion` at the second word of a two-word
dictionary with tokens `["X", "Y"]`. -/
theorem c6_suffix_expansion_witness :
    1 < (["abc", "de"] : List String).length
    ∧ ((expandBatch ["X", "Y"] ["abc", "de"]).length
        = (["abc", "de"] : List String).length * (1 + (["X", "Y"] : List String).length)
      ∧ ((expandBatch ["X", "Y"] ["abc", "de"]).drop
            (1 * (1 + (["X", "Y"] : List String).length))).take
            (1 + (["X", "Y"] : List String).length)
          = (["abc", "de"] : List String).getD 1 ""
              :: (["X", "Y"] : List String).map
                (fun sfx => (["abc", "de"] : List String).getD 1 "" ++ sfx)
      ∧ (∀ b, expandBatchYears b
          = expandBatch (YEARS_RANGE.map (fun year => toString year)) b)
      ∧ expandBatch ["X", "Y"] ["abc"] = ["abc", "abcX", "abcY"]
      ∧ expandBatchYears ["pw"]
          = ["pw", "pw2020", "pw2021", "pw2022", "pw2023", "pw2024", "pw2025"]) :=
  ⟨by decide, c6_suffix_expansion ["X", "Y"] ["abc", "de"] 1 (by decide)⟩

/-! ## Combination estimate vs. actual dictionary enumeration,
from `src/utils.py` lines 74-82 and `src/cracker.py` lines 513-577 -/

/-- Modelled from `src/utils.py` lines 239-255 (`chunks`): splits a list
into consecutive chunks of `size` elements, the last chunk possibly
shorter.  Size 0 yields no chunks (the first `islice` is empty and the
generator stops); the orchestrator always passes `PASSWORD_BATCH_SIZE`. -/
def chunksOf {α : Type} : Nat → List α → List (List α)
  | _, [] => []
  | 0, _ :: _ => []
  | n + 1, x :: xs => (x :: xs).take (n + 1) :: chunksOf (n + 1) ((x :: xs).drop (n + 1))
termination_by _ l => l.length
decreasing_by
  simp only [List.length_drop, List.length_cons]
  omega

/-- Modelled from `src/utils.py` lines 74-82: the dictionary branch of
`estimate_combinations` counts the lines of the file and multiplies by
`2026 - 2020` when `use_years` is set. -/
def estimate_combinations_dict (line_count : Nat) (use_years : Bool) : Nat :=
  if use_years then line_count * (2026 - 2020) else line_count

/-- Modelled from `src/cracker.py` lines 524-547: the dictionary attack with
`use_years` set reads the file's lines in `PASSWORD_BATCH_SIZE` chunks,
strips each line, expands each chunk with `expandBatchYears`, and hands
every expanded candidate to the workers; this is the total number of
candidates enumerated for the given lines. -/
def dictionaryCandidatesCount (words : List String) : Nat :=
  ((chunksOf PASSWORD_BATCH_SIZE words).map
    (fun chunk => (expandBatchYears (chunk.map (fun w => w.trim))).length)).sum

theorem chunksOf_flatten {α : Type} (n : Nat) :
    ∀ (k : Nat) (l : List α), l.length ≤ k → (chunksOf (n + 1) l).flatten = l := by
  intro k
  induction k with
  | zero =>
    intro l h
    have hl : l = [] := List.eq_nil_of_length_eq_zero (by omega)
    subst hl
    simp [chunksOf]
  | succ k ih =>
    intro l h
    cases l with
    | nil => simp [chunksOf]
    | cons x xs =>
      rw [chunksOf, List.flatten_cons]
      rw [ih ((x :: xs).drop (n + 1)) (by simp only [List.length_drop, List.length_cons]; simp only [List.length_cons] at h; omega)]
      exact List.take_append_drop (n + 1) (x :: xs)

theorem expandBatchYears_length (b : List String) :
    (expandBatchYears b).length = b.length * 7 := by
  rw [expandBatchYears_eq, expandBatch_length]
  rfl

theorem sum_map_length_mul_seven {α : Type} (f : α → Nat) (c : Nat) :
    ∀ l : List α, (l.map (fun x => f x * c)).sum = (l.map f).sum * c := by
  intro l
  induction l with
  | nil => simp
  | cons a t ih =>
    simp only [List.map_cons, List.sum_cons, ih]
    rw [Nat.add_mul]

/-- C10 — For a readable dictionary with suffix expansion enabled,
`estimate_combinations` reports `line_count * 6` (six year suffixes,
`2026 - 2020`) while the dictionary attack actually enumerates
`line_count * 7` candidates (each line plus its six year-suffixed forms),
so the estimate is strictly below the enumerated count for any non-empty
dictionary. -/
theorem c10_estimate_undercounts (words : List String) (h : 1 ≤ words.length) :
    estimate_combinations_dict words.length true = words.length * 6
    ∧ dictionaryCandidatesCount words = words.length * 7
    ∧ estimate_combinations_dict words.length true < dictionaryCandidatesCount words := by
  have hcount : dictionaryCandidatesCount words = words.length * 7 := by
    unfold dictionaryCandidatesCount
    have hmap : (chunksOf PASSWORD_BATCH_SIZE words).map
        (fun chunk => (expandBatchYears (chunk.map (fun w => w.trim))).length)
        = (chunksOf PASSWORD_BATCH_SIZE words).map (fun chunk => chunk.length * 7) := by
      apply List.map_congr_left
      intro chunk _
      rw [expandBatchYears_length, List.length_map]
    rw [hmap, sum_map_length_mul_seven List.length 7]
    have hflat : (chunksOf PASSWORD_BATCH_SIZE words).flatten = words := by
      have hb : PASSWORD_BATCH_SIZE = 9999 + 1 := rfl
      rw [hb]
      exact chunksOf_flatten 9999 words.length words (Nat.le_refl _)
    have hlen := congrArg List.length hflat
    rw [List.length_flatten] at hlen
    rw [hlen]
  refine ⟨by norm_num [estimate_combinations_dict], hcount, ?_⟩
  rw [hcount]
  have he : estimate_combinations_dict words.length true = words.length * 6 := by
    norm_num [estimate_combinations_dict]
  rw [he]
  omega

/-- Witness for `c10_estimate_undercounts` at a one-line dictionary. -/
theorem c10_estimate_undercounts_witness :
    1 ≤ (["hello"] : List String).length
    ∧ (estimate_combinations_dict (["hello"] : List String).length true
        = (["hello"] : List String).length * 6
      ∧ dictionaryCandidatesCount ["hello"] = (["hello"] : List String).length * 7
      ∧ estimate_combinations_dict (["hello"] : List String).length true
          < dictionaryCandidatesCount ["hello"]) :=
  ⟨by decide, c10_estimate_undercounts ["hello"] (by decide)⟩

/-! ## Brute-force orchestration and resume,
from `src/cracker.py` lines 229-377 and `main.py` lines 139-178 -/

/-- The length-first enumeration order on brute-force cursors
`(length, flat index)`: a candidate precedes a cursor when its length is
shorter, or equal with a smaller flat index. -/
def precedesCursor (p c : Nat × Nat) : Prop :=
  p.1 < c.1 ∨ (p.1 = c.1 ∧ p.2 < c.2)

instance (p c : Nat × Nat) : Decidable (precedesCursor p c) :=
  inferInstanceAs (Decidable (p.1 < c.1 ∨ (p.1 = c.1 ∧ p.2 < c.2)))

/-- The Python runtime type of a brute-force resume cursor, which the
resume guard of `_run_bruteforce_attack` inspects with
`isinstance(start_position, tuple)`: a cursor built in-process is the tuple
`(length, offset)`, while a cursor restored from the checkpoint file is a
JSON array and arrives as a Python list (JSON has no tuples). -/
inductive PyCursor where
  | tuple : Nat × Nat → PyCursor
  | list : List Nat → PyCursor

/-- Modelled from `src/utils.py` lines 33-57 (`save_checkpoint` and
`load_checkpoint`) and `main.py` line 143, as they affect the cursor's
runtime type: `json.dump` writes a Python tuple as a JSON array and
`json.load` restores a JSON array as a list, so the brute-force cursor
`(length, offset)` saved in a checkpoint is restored as the list
`[length, offset]`. -/
def checkpointRoundtrip : PyCursor → PyCursor
  | PyCursor.tuple lo => PyCursor.list [lo.1, lo.2]
  | PyCursor.list v => PyCursor.list v

/-- Modelled from `src/cracker.py` lines 246-263 (`_run_bruteforce_attack`):
the tasks submitted to the worker pool — for each length in
`range(min_length, max_length + 1)`, the ranges of
`calculate_work_division(charset_len ** length, num_gpus)`.  The resume
guard of line 255 is
`start_position and isinstance(start_position, tuple) and start_position[0] == length`,
so only a tuple cursor of the same length replaces the start of a range by
its offset when `offset >= start` (lines 256-257); a list cursor (the type
a checkpoint resume delivers) and ranges of other lengths are submitted
unchanged. -/
def bruteforceTaskRanges (charsetLen minLen maxLen numGpus : Nat)
    (startPos : Option PyCursor) : List (Nat × Nat × Nat) :=
  (List.range' minLen (maxLen + 1 - minLen)).flatMap (fun len =>
    (calculate_work_division (charsetLen ^ len) numGpus).map (fun r =>
      (len,
       match startPos with
       | some (PyCursor.tuple lo) => if lo.1 = len ∧ r.1 ≤ lo.2 then lo.2 else r.1
       | some (PyCursor.list _) => r.1
       | none => r.1,
       r.2)))

/-- The flat indices a brute-force task verifies in a run where no candidate
matches: `_gpu_bruteforce_task` scans exactly its first batch
`[start, start + min(PASSWORD_BATCH_SIZE, end - start))` before returning
(`src/cracker.py` lines 296-369), so these `(length, index)` pairs reach the
password check. -/
def taskVerifiedIndices (len s e cap : Nat) : List (Nat × Nat) :=
  if s < e then (List.range' s (min cap (e - s))).map (fun i => (len, i)) else []

/-- All `(length, flat index)` candidates verified by a no-match brute-force
run over the given configuration, resuming from `startPos`. -/
def verifiedBruteforce (charsetLen minLen maxLen numGpus cap : Nat)
    (startPos : Option PyCursor) : List (Nat × Nat) :=
  (bruteforceTaskRanges charsetLen minLen maxLen numGpus startPos).flatMap
    (fun t => taskVerifiedIndices t.1 t.2.1 t.2.2 cap)

/-- Modelled from `main.py` lines 139-178: on resume, `total_attempts`
starts from the checkpoint value and each yielded result adds its
`attempts` field. -/
def mainTotalAttempts (checkpointAttempts : Nat) (results : List Nat) : Nat :=
  results.foldl (fun acc a => acc + a) checkpointAttempts

theorem mainTotalAttempts_eq :
    ∀ (results : List Nat) (checkpointAttempts : Nat),
      mainTotalAttempts checkpointAttempts results = checkpointAttempts + results.sum := by
  intro results
  induction results with
  | nil =>
    intro K
    simp [mainTotalAttempts]
  | cons a t ih =>
    intro K
    unfold mainTotalAttempts at ih ⊢
    rw [List.foldl_cons, ih (K + a), List.sum_cons]
    omega

/-- C3, counterexample — resuming from a restored checkpoint re-verifies
candidates that precede the cursor.  Over charset size 2, length range
`[1, 1]`, one worker: the in-process cursor `(1, 1)` saved to the
checkpoint is restored as the list `[1, 1]`, the tuple-only resume guard of
`_run_bruteforce_attack` does not fire, and candidate `(1, 0)` — same
length, flat index below the offset — is verified again.  Even for a tuple
cursor `(2, 0)` passed in-process over lengths `[1, 2]`, the shorter-length
candidate `(1, 0)` preceding the cursor is verified again. -/
theorem c3_counterexample :
    (1, 0) ∈ verifiedBruteforce 2 1 1 1 PASSWORD_BATCH_SIZE
        (some (checkpointRoundtrip (PyCursor.tuple (1, 1))))
    ∧ precedesCursor (1, 0) (1, 1)
    ∧ (1, 0) ∈ verifiedBruteforce 2 1 2 1 PASSWORD_BATCH_SIZE
        (some (PyCursor.tuple (2, 0)))
    ∧ precedesCursor (1, 0) (2, 0) := by
  decide

/-- C3, amended — a checkpoint resume skips nothing: the resume guard
accepts only an in-memory tuple cursor while a checkpoint-restored cursor
is a list, so a run resumed from a restored cursor submits exactly the task
ranges of a fresh run, and candidates preceding the cursor — of shorter
length, or of the same length with flat index below the offset — can be
verified again (the counterexample gives one).  Only for a tuple cursor
passed in-process does the code advance the starts of same-length ranges to
the offset, and then no verified candidate at the cursor's length has flat
index below the offset.  The cumulative attempt count kept by `main` on
completion equals the checkpoint value plus the attempts accumulated after
the resume. -/
theorem c3_checkpoint_resume_noskip (charsetLen minLen maxLen numGpus cap cl co : Nat)
    (v : List Nat) (p : Nat × Nat) (checkpointAttempts : Nat) (results : List Nat)
    (hmem : p ∈ verifiedBruteforce charsetLen minLen maxLen numGpus cap
        (some (PyCursor.tuple (cl, co))))
    (hlen : p.1 = cl) :
    bruteforceTaskRanges charsetLen minLen maxLen numGpus (some (PyCursor.list v))
        = bruteforceTaskRanges charsetLen minLen maxLen numGpus none
    ∧ co ≤ p.2
    ∧ mainTotalAttempts checkpointAttempts results = checkpointAttempts + results.sum := by
  refine ⟨rfl, ?_, mainTotalAttempts_eq results checkpointAttempts⟩
  unfold verifiedBruteforce at hmem
  rw [List.mem_flatMap] at hmem
  obtain ⟨t, ht, hp⟩ := hmem
  unfold bruteforceTaskRanges at ht
  rw [List.mem_flatMap] at ht
  obtain ⟨len, _, ht2⟩ := ht
  rw [List.mem_map] at ht2
  obtain ⟨r, _, hteq⟩ := ht2
  subst hteq
  unfold taskVerifiedIndices at hp
  dsimp only at hp
  split at hp
  · rename_i hc
    split at hp
    · rw [List.mem_map] at hp
      obtain ⟨i, hi, hpe⟩ := hp
      obtain ⟨j, _, hj⟩ := List.mem_range'.mp hi
      subst hpe
      dsimp only
      omega
    · exact absurd hp (List.not_mem_nil p)
  · rename_i hc
    split at hp
    · rw [List.mem_map] at hp
      obtain ⟨i, hi, hpe⟩ := hp
      obtain ⟨j, _, hj⟩ := List.mem_range'.mp hi
      subst hpe
      dsimp only at hlen ⊢
      rcases Decidable.not_and_iff_or_not.mp hc with hne | hgt
      · exact absurd hlen.symm hne
      · omega
    · exact absurd hp (List.not_mem_nil p)

/-- Witness for `c3_checkpoint_resume_noskip` at the concrete configuration
of the counterexample, with tuple cursor `(2, 1)`, restored list cursor
`[9, 9]`, checkpoint attempts 5, and post-resume results `[2, 3]`. -/
theorem c3_checkpoint_resume_noskip_witness :
    ((2, 1) ∈ verifiedBruteforce 2 1 2 1 10 (some (PyCursor.tuple (2, 1)))
      ∧ ((2, 1) : Nat × Nat).1 = 2)
    ∧ (bruteforceTaskRanges 2 1 2 1 (some (PyCursor.list [9, 9]))
        = bruteforceTaskRanges 2 1 2 1 none
      ∧ 1 ≤ ((2, 1) : Nat × Nat).2
      ∧ mainTotalAttempts 5 [2, 3] = 5 + [2, 3].sum) :=
  ⟨⟨by decide, by decide⟩,
    c3_checkpoint_resume_noskip 2 1 2 1 10 2 1 [9, 9] (2, 1) 5 [2, 3]
      (by decide) (by decide)⟩

/-! ## Worker-count validation, from `src/utils.py` lines 213-237 under
full Python integer semantics -/

/-- Helper for `calculate_work_division_py`: the same loop as `divLoop`
over Python integers; `range(num_gpus)` iterates `max(num_gpus, 0)` times
and `i < remainder` is an integer comparison. -/
def divLoopInt (base rem : Int) : Nat → Int → Int → List (Int × Int)
  | 0, _, _ => []
  | n + 1, i, start =>
    (start, start + (base + if i < rem then 1 else 0)) ::
      divLoopInt base rem n (i + 1) (start + (base + if i < rem then 1 else 0))

/-- Modelled from `src/utils.py` lines 213-237 with Python `int` semantics:
`//` is floor division and `%` the matching remainder (`Int.fdiv` and
`Int.fmod`), dividing by zero raises `ZeroDivisionError`, and
`range(num_gpus)` is empty for a non-positive count.  The value is the
exception raised or the returned list of ranges. -/
def calculate_work_division_py (total_combinations num_gpus : Int) :
    Except String (List (Int × Int)) :=
  if num_gpus = 0 then Except.error "ZeroDivisionError"
  else Except.ok (divLoopInt (Int.fdiv total_combinations num_gpus)
    (Int.fmod total_combinations num_gpus) num_gpus.toNat 0 0)

/-- C9, counterexample — partitioning with a non-positive worker count does
not fail with an `InvalidWorkerCount` error: for `n_workers = -1` the
function does not fail at all, silently returning an empty list of ranges
(so the claimed validation error cannot be raised for every
`n_workers ≤ 0`). -/
theorem c9_counterexample :
    calculate_work_division_py 5 (-1) = Except.ok [] := rfl

/-- C9, amended — `calculate_work_division` performs no worker-count
validation: `n_workers = 0` fails with an unhandled `ZeroDivisionError`
(from `total_combinations // 0`), not an `InvalidWorkerCount` error, and
every negative `n_workers` silently returns an empty list of ranges. -/
theorem c9_no_worker_count_validation (total : Int) :
    calculate_work_division_py total 0 = Except.error "ZeroDivisionError"
    ∧ (∀ n : Int, n < 0 → calculate_work_division_py total n = Except.ok []) := by
  constructor
  · simp [calculate_work_division_py]
  · intro n hn
    unfold calculate_work_division_py
    rw [if_neg (by omega)]
    have hz : n.toNat = 0 := Int.toNat_of_nonpos (by omega)
    rw [hz]
    rfl

/-- Witness for `c9_no_worker_count_validation` at `total = 5`,
`n_workers = -1`. -/
theorem c9_no_worker_count_validation_witness :
    calculate_work_division_py 5 0 = Except.error "ZeroDivisionError"
    ∧ ((-1 : Int) < 0
      ∧ calculate_work_division_py 5 (-1) = Except.ok []) :=
  ⟨(c9_no_worker_count_validation 5).1,
    by decide,
    (c9_no_worker_count_validation 5).2 (-1) (by decide)⟩
